import Mathlib

/-!
Verification development for `key_analysis.py`: a shallow embedding of the
range classifier (`main`, lines 79-86), the group builder (`get_groups`) and
the group locator (`find_group_index`, built on `bisect.bisect_left`),
together with proofs of the specified properties.

Python integers are modelled as `Int` (or `Nat` where the values are
non-negative by construction); Python-level runtime faults are modelled by
an explicit error type `PyErr` and `Except` results.
-/

/-- Runtime error outcomes. `indexError` and `assertionError` are the faults
the translated code can actually raise (indexing an empty list, a failed
`assert`). `invalidHighKey` and `emptyInput` are the named error conditions
of the spec's error taxonomy (§7); they are included so that statements about
which error signal is raised can be expressed. -/
inductive PyErr where
  | indexError
  | assertionError
  | invalidHighKey
  | emptyInput
deriving DecidableEq, Repr

/-- The fixed cutoff constant from the source (`CUTOFF = 0x10000`). -/
def CUTOFF : Nat := 0x10000

/-- The page/window size constant from the source (`PAGE = 1024`). -/
def PAGE : Int := 1024

/-- The classification loop of `main` (source lines 79-86): each value below
`CUTOFF` goes to `low` unchanged; each value at or above `CUTOFF` must pass
the bare `assert x % 4 == 0` (modelled as an `assertionError` failure) and is
appended to `high` as `CUTOFF + (x - CUTOFF) // 4`. The loop aborts at the
first failing assertion. -/
def classify : List Nat → Except PyErr (List Nat × List Nat)
  | [] => Except.ok ([], [])
  | x :: rest =>
    if x < CUTOFF then
      (classify rest).map (fun p => (x :: p.1, p.2))
    else if x % 4 = 0 then
      (classify rest).map (fun p => (p.1, (CUTOFF + (x - CUTOFF) / 4) :: p.2))
    else
      Except.error PyErr.assertionError

/-- One iteration of the `get_groups` loop (source lines 59-64): compare `x`
to the last element of the last group; start a new group on `x - last > gap`,
otherwise append `x` to the last group (the in-place `append` becomes
replacing the last group by `last_group ++ [x]`). The defaults of `getLastD`
are never consulted: the state always consists of at least one non-empty
group. -/
def get_groups_step (gap : Int) (groups : List (List Int)) (x : Int) : List (List Int) :=
  let last_group := groups.getLastD []
  if x - last_group.getLastD 0 > gap then
    groups ++ [[x]]
  else
    groups.dropLast ++ [last_group ++ [x]]

/-- `get_groups` (source lines 56-66). It unconditionally seeds the first
group with `nums[0]`, so the empty input raises an `IndexError`; otherwise it
folds `get_groups_step` over the remaining elements. -/
def get_groups (nums : List Int) (gap : Int) : Except PyErr (List (List Int)) :=
  match nums with
  | [] => Except.error PyErr.indexError
  | n :: rest => Except.ok (rest.foldl (get_groups_step gap) [[n]])

/-- Structural recursion computing the same grouping as the `get_groups`
loop for the non-empty input `n :: rest`: the group containing `n` extends
until the first adjacent pair whose difference exceeds `gap`. Used as the
induction-friendly form of `get_groups`; the two are proved equal below. -/
def getGroupsNE (gap : Int) (n : Int) : List Int → List (List Int)
  | [] => [[n]]
  | x :: rest =>
    if x - n > gap then
      [n] :: getGroupsNE gap x rest
    else
      match getGroupsNE gap x rest with
      | [] => [[n]]
      | [] :: gs => [n] :: gs
      | (y :: t) :: gs => (n :: y :: t) :: gs

/-- The list comprehension `starts = [g[0] for g in groups]` (source line
19): `g[0]` on an empty group raises an `IndexError`, modelled as `none`. -/
def headsOf : List (List Int) → Option (List Int)
  | [] => some []
  | [] :: _ => none
  | (a :: _) :: gs => (headsOf gs).map (a :: ·)

/-- Fuel-indexed translation of the `while lo < hi` loop of CPython's
`bisect.bisect_left`: `mid = (lo + hi) // 2`; move `lo` past `mid` when
`a[mid] < x`, otherwise lower `hi` to `mid`. Each iteration strictly shrinks
`hi - lo`, so any fuel of at least `hi - lo` computes the loop's result. -/
def bisectLeftAux (a : List Int) (x : Int) : Nat → Nat → Nat → Nat
  | 0, lo, _ => lo
  | fuel + 1, lo, hi =>
    if lo < hi then
      if a.getD ((lo + hi) / 2) 0 < x then bisectLeftAux a x fuel ((lo + hi) / 2 + 1) hi
      else bisectLeftAux a x fuel lo ((lo + hi) / 2)
    else lo

/-- `bisect.bisect_left(a, x)`: the loop starts at `lo = 0`, `hi = len(a)`,
and `a.length` fuel is enough for it to run to completion. -/
def bisectLeft (a : List Int) (x : Int) : Nat :=
  bisectLeftAux a x a.length 0 a.length

/-- `find_group_index` (source lines 10-38). An empty group list returns the
sentinel `-1`; otherwise the starts are extracted (line 19; `starts[i]` is
`groups[i][0]`), the insertion position `pos` is found by binary search, the
candidate indices `pos` (when in bounds and `|starts[pos] - x| < page`) and
`pos - 1` (when `pos > 0` and `|starts[pos-1] - x| < page`) are collected,
and the minimum candidate — or `-1` when there is none — is returned. -/
def find_group_index (groups : List (List Int)) (x page : Int) : Except PyErr Int :=
  if groups.isEmpty then Except.ok (-1)
  else
    match headsOf groups with
    | none => Except.error PyErr.indexError
    | some starts =>
      let pos := bisectLeft starts x
      let candidates : List Nat :=
        (if pos < groups.length ∧ |starts.getD pos 0 - x| < page then [pos] else [])
          ++ (if 0 < pos ∧ |starts.getD (pos - 1) 0 - x| < page then [pos - 1] else [])
      match candidates with
      | [] => Except.ok (-1)
      | c :: cs => Except.ok ((cs.foldl min c : Nat) : Int)

/-- The locator contract as worded in §4.3 of the spec, over the start
table: candidates are the group at the insertion position `pos` (if in
bounds) and the one at `pos - 1` (if `pos > 0`); a candidate qualifies iff
`|start - x| < page` (strict); if both qualify the smaller index wins, if
exactly one qualifies it is returned, and otherwise the sentinel `-1`. -/
def locateSpec (starts : List Int) (x page : Int) : Int :=
  let pos := bisectLeft starts x
  let inb : Prop := pos < starts.length ∧ |starts.getD pos 0 - x| < page
  let before : Prop := 0 < pos ∧ |starts.getD (pos - 1) 0 - x| < page
  if before ∧ inb then ((pos - 1 : Nat) : Int)
  else if inb then (pos : Int)
  else if before then ((pos - 1 : Nat) : Int)
  else -1

/-- `getGroupsNE gap n rest` always returns a list whose first group starts
with `n`. -/
theorem getGroupsNE_shape (gap : Int) :
    ∀ (rest : List Int) (n : Int), ∃ t gs, getGroupsNE gap n rest = (n :: t) :: gs := by
  intro rest
  induction rest with
  | nil => intro n; exact ⟨[], [], rfl⟩
  | cons x rest ih =>
    intro n
    by_cases h : x - n > gap
    · exact ⟨[], getGroupsNE gap x rest, by simp [getGroupsNE, h]⟩
    · obtain ⟨t, gs, hx⟩ := ih x
      exact ⟨x :: t, gs, by simp [getGroupsNE, h, hx]⟩

/-- The `get_groups` fold, started on a state whose last group ends in `l`,
computes the structural grouping of the remaining elements, with the head
chunk merged into the current group. -/
theorem foldl_get_groups_step (gap : Int) :
    ∀ (rest : List Int) (gs : List (List Int)) (g : List Int) (l : Int)
      (t : List Int) (gs2 : List (List Int)),
      g.getLast? = some l →
      getGroupsNE gap l rest = (l :: t) :: gs2 →
      rest.foldl (get_groups_step gap) (gs ++ [g]) = gs ++ ((g ++ t) :: gs2) := by
  intro rest
  induction rest with
  | nil =>
    intro gs g l t gs2 _ ht
    simp only [getGroupsNE, List.cons.injEq] at ht
    obtain ⟨⟨-, ht1⟩, ht2⟩ := ht
    subst ht1; subst ht2
    simp
  | cons x rest ih =>
    intro gs g l t gs2 hg ht
    have hlast : (gs ++ [g]).getLastD [] = g := List.getLastD_concat _ _ _
    have hlastelem : g.getLastD 0 = l := by
      rw [List.getLastD_eq_getLast?, hg]; rfl
    simp only [List.foldl_cons]
    obtain ⟨t2, gs3, hx⟩ := getGroupsNE_shape gap rest x
    by_cases h : x - l > gap
    · have hstep : get_groups_step gap (gs ++ [g]) x = (gs ++ [g]) ++ [[x]] := by
        simp only [get_groups_step, hlast, hlastelem]
        rw [if_pos h]
      simp only [getGroupsNE, if_pos h, List.cons.injEq] at ht
      obtain ⟨⟨-, ht1⟩, ht2⟩ := ht
      subst ht1; subst ht2
      rw [hstep, ih (gs ++ [g]) [x] x t2 gs3 rfl hx, hx]
      simp
    · have hstep : get_groups_step gap (gs ++ [g]) x = gs ++ [g ++ [x]] := by
        simp only [get_groups_step, hlast, hlastelem]
        rw [if_neg h, List.dropLast_concat]
      simp only [getGroupsNE, if_neg h, hx, List.cons.injEq] at ht
      obtain ⟨⟨-, ht1⟩, ht2⟩ := ht
      subst ht1; subst ht2
      rw [hstep, ih gs (g ++ [x]) x t2 gs3 (by simp) hx]
      simp
/-- On a non-empty input, `get_groups` succeeds and computes the structural
grouping. -/
theorem get_groups_eq (gap n : Int) (rest : List Int) :
    get_groups (n :: rest) gap = Except.ok (getGroupsNE gap n rest) := by
  obtain ⟨t, gs, h⟩ := getGroupsNE_shape gap rest n
  have hb := foldl_get_groups_step gap rest [] [n] n t gs rfl h
  simp only [List.nil_append] at hb
  simp only [get_groups, hb, h]
  simp

/-- Concatenating the structural grouping reproduces the input. -/
theorem getGroupsNE_join (gap : Int) :
    ∀ (rest : List Int) (n : Int), (getGroupsNE gap n rest).flatten = n :: rest := by
  intro rest
  induction rest with
  | nil => intro n; simp [getGroupsNE]
  | cons x rest ih =>
    intro n
    by_cases h : x - n > gap
    · simp [getGroupsNE, h, ih x]
    · obtain ⟨t, gs, hx⟩ := getGroupsNE_shape gap rest x
      have hj := ih x
      rw [hx] at hj
      simp only [List.flatten_cons] at hj
      simp [getGroupsNE, h, hx, hj]

/-- Every group of the structural grouping has consecutive differences at
most `gap`. -/
theorem getGroupsNE_cohesion (gap : Int) :
    ∀ (rest : List Int) (n : Int), ∀ g ∈ getGroupsNE gap n rest,
      List.Chain' (fun a b => b - a ≤ gap) g := by
  intro rest
  induction rest with
  | nil =>
    intro n g hg
    simp only [getGroupsNE, List.mem_singleton] at hg
    subst hg
    simp
  | cons x rest ih =>
    intro n g hg
    by_cases h : x - n > gap
    · simp only [getGroupsNE, if_pos h, List.mem_cons] at hg
      rcases hg with rfl | hg
      · simp
      · exact ih x g hg
    · obtain ⟨t, gs, hx⟩ := getGroupsNE_shape gap rest x
      simp only [getGroupsNE, if_neg h, hx, List.mem_cons] at hg
      rcases hg with rfl | hg
      · have hchain : List.Chain' (fun a b => b - a ≤ gap) (x :: t) :=
          ih x (x :: t) (by rw [hx]; exact List.mem_cons_self _ _)
        exact List.Chain'.cons (by omega) hchain
      · exact ih x g (by rw [hx]; exact List.mem_cons_of_mem _ hg)

/-- Adjacent groups of the structural grouping are separated by more than
`gap`: the successor's first element exceeds the predecessor's last element
by more than `gap`. -/
theorem getGroupsNE_boundary (gap : Int) :
    ∀ (rest : List Int) (n : Int),
      List.Chain' (fun A B => gap < B.headD 0 - A.getLastD 0) (getGroupsNE gap n rest) := by
  intro rest
  induction rest with
  | nil => intro n; simp [getGroupsNE]
  | cons x rest ih =>
    intro n
    obtain ⟨t, gs, hx⟩ := getGroupsNE_shape gap rest x
    have ihx := ih x
    rw [hx] at ihx
    by_cases h : x - n > gap
    · simp only [getGroupsNE, if_pos h, hx]
      refine List.chain'_cons.mpr ⟨?_, ihx⟩
      simp
      omega
    · simp only [getGroupsNE, if_neg h, hx]
      cases gs with
      | nil => simp
      | cons B gs2 =>
        have hrel : gap < B.headD 0 - (x :: t).getLastD 0 :=
          (List.chain'_cons.mp ihx).1
        refine List.chain'_cons.mpr ⟨?_, (List.chain'_cons.mp ihx).2⟩
        rw [List.getLastD_cons] at hrel ⊢
        cases t with
        | nil => simpa using hrel
        | cons y t2 => simpa using hrel

/-- Group-count recurrence: prepending an element adds a group exactly when
its distance to the old first element exceeds `gap`. -/
theorem getGroupsNE_length_cons (gap n x : Int) (rest : List Int) :
    (getGroupsNE gap n (x :: rest)).length =
      (if x - n > gap then 1 else 0) + (getGroupsNE gap x rest).length := by
  by_cases h : x - n > gap
  · simp [getGroupsNE, h]
    omega
  · obtain ⟨t, gs, hx⟩ := getGroupsNE_shape gap rest x
    simp [getGroupsNE, h, hx]

/-- A larger tolerance never yields more groups. -/
theorem getGroupsNE_mono (g1 g2 : Int) (hle : g1 ≤ g2) :
    ∀ (rest : List Int) (n : Int),
      (getGroupsNE g2 n rest).length ≤ (getGroupsNE g1 n rest).length := by
  intro rest
  induction rest with
  | nil => intro n; simp [getGroupsNE]
  | cons x rest ih =>
    intro n
    rw [getGroupsNE_length_cons, getGroupsNE_length_cons]
    have hx := ih x
    by_cases h1 : x - n > g1
    · by_cases h2 : x - n > g2 <;> simp [h1, h2] <;> omega
    · have h2 : ¬ x - n > g2 := by omega
      simp [h1, h2]
      omega

/-- C1: for every non-empty input sequence and every gap tolerance,
`get_groups` succeeds and concatenating the elements of all its groups, in
order, reproduces the input sequence exactly. -/
theorem get_groups_partition_complete (nums : List Int) (gap : Int)
    (h : nums ≠ []) :
    ∃ gs, get_groups nums gap = Except.ok gs ∧ gs.flatten = nums := by
  cases nums with
  | nil => exact absurd rfl h
  | cons n rest =>
    exact ⟨getGroupsNE gap n rest, get_groups_eq gap n rest, getGroupsNE_join gap rest n⟩

/-- Witness for C1 at the spec's Scenario 1 input. -/
theorem get_groups_partition_complete_witness :
    ∃ gs, get_groups [1, 2, 3, 10, 11, 50] 1 = Except.ok gs ∧
      gs.flatten = [1, 2, 3, 10, 11, 50] :=
  get_groups_partition_complete [1, 2, 3, 10, 11, 50] 1 (by simp)

/-- C2: on a non-empty ascending input, every pair of consecutive elements
inside one group returned by `get_groups` differs by at most the tolerance. -/
theorem get_groups_internal_cohesion (nums : List Int) (gap : Int)
    (gs : List (List Int)) (hasc : List.Chain' (· ≤ ·) nums)
    (h : get_groups nums gap = Except.ok gs) :
    ∀ g ∈ gs, List.Chain' (fun a b => b - a ≤ gap) g := by
  cases nums with
  | nil => simp [get_groups] at h
  | cons n rest =>
    rw [get_groups_eq] at h
    obtain rfl : getGroupsNE gap n rest = gs := by
      simpa using h
    exact getGroupsNE_cohesion gap rest n

/-- Witness for C2 at the spec's Scenario 1 input. -/
theorem get_groups_internal_cohesion_witness :
    List.Chain' (fun a b => b - a ≤ (1 : Int)) [1, 2, 3] :=
  get_groups_internal_cohesion [1, 2, 3, 10, 11, 50] 1 [[1, 2, 3], [10, 11], [50]]
    (by norm_num [List.chain'_cons]) (by rfl) [1, 2, 3] (by simp)

/-- C3: on a non-empty ascending input, any two adjacent groups A, B of the
`get_groups` output satisfy `B.first - A.last > gap`. -/
theorem get_groups_boundary (nums : List Int) (gap : Int)
    (gs : List (List Int)) (hasc : List.Chain' (· ≤ ·) nums)
    (h : get_groups nums gap = Except.ok gs) :
    List.Chain' (fun A B => gap < B.headD 0 - A.getLastD 0) gs := by
  cases nums with
  | nil => simp [get_groups] at h
  | cons n rest =>
    rw [get_groups_eq] at h
    obtain rfl : getGroupsNE gap n rest = gs := by
      simpa using h
    exact getGroupsNE_boundary gap rest n

/-- Witness for C3 at the spec's Scenario 1 input. -/
theorem get_groups_boundary_witness :
    List.Chain' (fun A B => (1 : Int) < B.headD 0 - A.getLastD 0)
      [[1, 2, 3], [10, 11], [50]] :=
  get_groups_boundary [1, 2, 3, 10, 11, 50] 1 [[1, 2, 3], [10, 11], [50]]
    (by norm_num [List.chain'_cons]) (by rfl)

/-- C4: for a fixed non-empty ascending input and tolerances `g1 < g2`, the
group count produced with `g2` is at most the group count produced with
`g1`. -/
theorem get_groups_tolerance_mono (nums : List Int) (g1 g2 : Int)
    (hasc : List.Chain' (· ≤ ·) nums) (hlt : g1 < g2) (h : nums ≠ []) :
    ∃ gs1 gs2, get_groups nums g1 = Except.ok gs1 ∧
      get_groups nums g2 = Except.ok gs2 ∧ gs2.length ≤ gs1.length := by
  cases nums with
  | nil => exact absurd rfl h
  | cons n rest =>
    exact ⟨getGroupsNE g1 n rest, getGroupsNE g2 n rest,
      get_groups_eq g1 n rest, get_groups_eq g2 n rest,
      getGroupsNE_mono g1 g2 (le_of_lt hlt) rest n⟩

/-- Witness for C4 at the Scenario 1/2 input with tolerances 1 and 10. -/
theorem get_groups_tolerance_mono_witness :
    ∃ gs1 gs2, get_groups [1, 2, 3, 10, 11, 50] 1 = Except.ok gs1 ∧
      get_groups [1, 2, 3, 10, 11, 50] 10 = Except.ok gs2 ∧
      gs2.length ≤ gs1.length :=
  get_groups_tolerance_mono [1, 2, 3, 10, 11, 50] 1 10
    (by norm_num [List.chain'_cons]) (by norm_num) (by simp)

/-- Mapping over an `Except` value yields an error exactly when the value is
that error. -/
theorem except_map_eq_error {α β γ : Type} (f : α → β) (e : Except γ α) (err : γ) :
    e.map f = Except.error err ↔ e = Except.error err := by
  cases e <;> simp [Except.map]

/-- C5: on inputs of non-negative integers whose high-range values are all
divisible by 4, `classify` returns `low` = the values below the cutoff,
unchanged and in order, and `high` = the values at or above the cutoff, each
transformed to `CUTOFF + (value - CUTOFF) / 4`, in order. -/
theorem classify_partitions (nums : List Nat)
    (h : ∀ x ∈ nums, CUTOFF ≤ x → x % 4 = 0) :
    classify nums = Except.ok
      (nums.filter (fun x => x < CUTOFF),
        (nums.filter (fun x => CUTOFF ≤ x)).map (fun x => CUTOFF + (x - CUTOFF) / 4)) := by
  induction nums with
  | nil => rfl
  | cons x rest ih =>
    have hrest : ∀ y ∈ rest, CUTOFF ≤ y → y % 4 = 0 :=
      fun y hy => h y (List.mem_cons_of_mem _ hy)
    by_cases hx : x < CUTOFF
    · have hxn : ¬ CUTOFF ≤ x := not_le_of_lt hx
      simp [classify, hx, hxn, ih hrest, List.filter_cons, Except.map]
    · have hxge : CUTOFF ≤ x := le_of_not_lt hx
      have hx4 : x % 4 = 0 := h x (List.mem_cons_self _ _) hxge
      simp [classify, hx, hxge, hx4, ih hrest, List.filter_cons, Except.map]

/-- Witness for C5 at the spec's Scenario 3 input. -/
theorem classify_partitions_witness :
    classify [100, 0x10000, 0x10008] = Except.ok ([100], [0x10000, 0x10002]) := by
  have h := classify_partitions [100, 0x10000, 0x10008] (by decide)
  simpa using h

/-- C6 counterexample: on the input `[0x10001]` (whose high-range value is
not divisible by 4), the classifier fails with the bare assertion fault, not
with the named `invalidHighKey` condition required by the claim. -/
theorem classify_invalid_high_key_cex :
    classify [0x10001] = Except.error PyErr.assertionError ∧
      (Except.error PyErr.assertionError : Except PyErr (List Nat × List Nat)) ≠
        Except.error PyErr.invalidHighKey :=
  ⟨rfl, fun h => absurd (Except.error.inj h) (by decide)⟩

/-- C6 (amended): classification fails exactly when some input value at or
above the cutoff is not divisible by 4, and the failure signal is the bare
assertion fault (`assert x % 4 == 0`), aborting the classification; when all
high-range values are divisible by 4 the classifier succeeds with no error. -/
theorem classify_assert_fail (nums : List Nat) :
    ((∃ x ∈ nums, CUTOFF ≤ x ∧ x % 4 ≠ 0) ↔
      classify nums = Except.error PyErr.assertionError) ∧
    ((∀ x ∈ nums, CUTOFF ≤ x → x % 4 = 0) → ∃ p, classify nums = Except.ok p) := by
  induction nums with
  | nil => exact ⟨by simp [classify], fun _ => ⟨([], []), rfl⟩⟩
  | cons x rest ih =>
    by_cases hx : x < CUTOFF
    · have hxn : ¬ CUTOFF ≤ x := not_le_of_lt hx
      constructor
      · rw [show classify (x :: rest) = (classify rest).map (fun p => (x :: p.1, p.2)) by
          simp [classify, hx]]
        rw [except_map_eq_error]
        simpa [hxn] using ih.1
      · intro h
        obtain ⟨p, hp⟩ := ih.2 (fun y hy => h y (List.mem_cons_of_mem _ hy))
        exact ⟨(x :: p.1, p.2), by simp [classify, hx, hp, Except.map]⟩
    · by_cases hx4 : x % 4 = 0
      · constructor
        · rw [show classify (x :: rest) =
              (classify rest).map (fun p => (p.1, (CUTOFF + (x - CUTOFF) / 4) :: p.2)) by
            simp [classify, hx, hx4]]
          rw [except_map_eq_error]
          constructor
          · rintro ⟨y, hy, hyge, hy4⟩
            rcases List.mem_cons.mp hy with rfl | hy
            · exact absurd hx4 hy4
            · exact ih.1.mp ⟨y, hy, hyge, hy4⟩
          · intro h
            obtain ⟨y, hy, hyge, hy4⟩ := ih.1.mpr h
            exact ⟨y, List.mem_cons_of_mem _ hy, hyge, hy4⟩
        · intro h
          obtain ⟨p, hp⟩ := ih.2 (fun y hy => h y (List.mem_cons_of_mem _ hy))
          exact ⟨(p.1, (CUTOFF + (x - CUTOFF) / 4) :: p.2), by simp [classify, hx, hx4, hp, Except.map]⟩
      · have hxge : CUTOFF ≤ x := le_of_not_lt hx
        constructor
        · have : classify (x :: rest) = Except.error PyErr.assertionError := by
            simp [classify, hx, hx4]
          exact ⟨fun _ => this, fun _ => ⟨x, List.mem_cons_self _ _, hxge, hx4⟩⟩
        · intro h
          exact absurd (h x (List.mem_cons_self _ _) hxge) hx4

/-- Witness for C6's amended claim: an all-divisible input classifies with
no error. -/
theorem classify_assert_fail_witness :
    ∃ p, classify [100, 0x10000] = Except.ok p :=
  (classify_assert_fail [100, 0x10000]).2 (by decide)

/-- C7 counterexample: on the empty input, `get_groups` propagates the raw
index fault; it neither raises the named `emptyInput` condition nor returns
an empty group list. -/
theorem get_groups_empty_cex :
    get_groups [] 4 = Except.error PyErr.indexError ∧
      ¬ (get_groups [] 4 = Except.error PyErr.emptyInput ∨
          get_groups [] 4 = Except.ok []) := by
  refine ⟨rfl, ?_⟩
  rintro (h | h)
  · exact absurd (Except.error.inj h) (by decide)
  · exact Except.noConfusion h

/-- C7 (amended): on the empty input sequence `get_groups` fails, and the
error signal is the raw index-out-of-bounds fault coming from the
unconditional access to the first element, for every gap tolerance. -/
theorem get_groups_empty_index_fault (gap : Int) :
    get_groups [] gap = Except.error PyErr.indexError := rfl

/-- When every group is non-empty, extracting the starts succeeds and gives
the heads of the groups. -/
theorem headsOf_eq : ∀ (groups : List (List Int)), (∀ g ∈ groups, g ≠ []) →
    headsOf groups = some (groups.map (fun g => g.headD 0)) := by
  intro groups
  induction groups with
  | nil => intro _; rfl
  | cons g gs ih =>
    intro h
    cases g with
    | nil => exact absurd rfl (h [] (List.mem_cons_self _ _))
    | cons a t =>
      simp [headsOf, ih (fun g hg => h g (List.mem_cons_of_mem _ hg))]

/-- The binary-search loop stays within its bounds. -/
theorem bisectLeftAux_le (a : List Int) (x : Int) :
    ∀ (fuel lo hi : Nat), lo ≤ hi →
      lo ≤ bisectLeftAux a x fuel lo hi ∧ bisectLeftAux a x fuel lo hi ≤ hi := by
  intro fuel
  induction fuel with
  | zero => intro lo hi h; simp only [bisectLeftAux]; omega
  | succ fuel ih =>
    intro lo hi h
    simp only [bisectLeftAux]
    by_cases hlh : lo < hi
    · rw [if_pos hlh]
      by_cases hm : a.getD ((lo + hi) / 2) 0 < x
      · rw [if_pos hm]
        have := ih ((lo + hi) / 2 + 1) hi (by omega)
        omega
      · rw [if_neg hm]
        have := ih lo ((lo + hi) / 2) (by omega)
        omega
    · rw [if_neg hlh]; omega

/-- The binary search returns a position within the array length. -/
theorem bisectLeft_le_length (a : List Int) (x : Int) :
    bisectLeft a x ≤ a.length :=
  (bisectLeftAux_le a x a.length 0 a.length (Nat.zero_le _)).2

/-- Characterization of the binary-search loop: when given enough fuel and
an index `k` splitting the inspected range into values below `x` (left) and
values not below `x` (right), the loop returns `k`. -/
theorem bisectLeftAux_eq (a : List Int) (x : Int) :
    ∀ (fuel lo hi k : Nat), hi - lo ≤ fuel → lo ≤ k → k ≤ hi →
      (∀ j, lo ≤ j → j < k → a.getD j 0 < x) →
      (∀ j, k ≤ j → j < hi → ¬ a.getD j 0 < x) →
      bisectLeftAux a x fuel lo hi = k := by
  intro fuel
  induction fuel with
  | zero =>
    intro lo hi k hfuel hlk hkh _ _
    simp only [bisectLeftAux]
    omega
  | succ fuel ih =>
    intro lo hi k hfuel hlk hkh hlow hhigh
    simp only [bisectLeftAux]
    by_cases hlh : lo < hi
    · rw [if_pos hlh]
      by_cases hm : a.getD ((lo + hi) / 2) 0 < x
      · rw [if_pos hm]
        have hmk : (lo + hi) / 2 < k := by
          by_contra hc
          exact hhigh ((lo + hi) / 2) (by omega) (by omega) hm
        exact ih ((lo + hi) / 2 + 1) hi k (by omega) (by omega) hkh
          (fun j hj1 hj2 => hlow j (by omega) hj2) hhigh
      · rw [if_neg hm]
        have hkm : k ≤ (lo + hi) / 2 := by
          by_contra hc
          exact hm (hlow ((lo + hi) / 2) (by omega) (by omega))
        exact ih lo ((lo + hi) / 2) k (by omega) hlk hkm hlow
          (fun j hj1 hj2 => hhigh j hj1 (by omega))
    · rw [if_neg hlh]
      omega

/-- On a non-empty list of non-empty groups, `find_group_index` succeeds and
returns exactly the index described by the spec's locator contract over the
start table. -/
theorem find_group_index_eq_locate (groups : List (List Int)) (x page : Int)
    (hne : groups ≠ []) (hg : ∀ g ∈ groups, g ≠ []) :
    find_group_index groups x page =
      Except.ok (locateSpec (groups.map (fun g => g.headD 0)) x page) := by
  have hisEmpty : groups.isEmpty = false := by
    cases groups with
    | nil => exact absurd rfl hne
    | cons g gs => rfl
  have hh := headsOf_eq groups hg
  have hlen : (groups.map (fun g => g.headD 0)).length = groups.length :=
    List.length_map _ _
  simp only [find_group_index, hisEmpty, hh, Bool.false_eq_true, if_false, locateSpec]
  set starts := groups.map (fun g => g.headD 0) with hst
  set pos := bisectLeft starts x with hpos
  by_cases h1 : 0 < pos ∧ |starts.getD (pos - 1) 0 - x| < page
  · by_cases h0 : pos < groups.length ∧ |starts.getD pos 0 - x| < page
    · have h0' : pos < starts.length ∧ |starts.getD pos 0 - x| < page :=
        ⟨by rw [hlen]; exact h0.1, h0.2⟩
      simp only [if_pos h0, if_pos h1, if_pos (And.intro h1 h0')]
      show Except.ok ((min pos (pos - 1) : Nat) : Int) = Except.ok ((pos - 1 : Nat) : Int)
      rw [Nat.min_eq_right (Nat.sub_le pos 1)]
    · have hinb : ¬ (pos < starts.length ∧ |starts.getD pos 0 - x| < page) :=
        fun hc => h0 ⟨by rw [← hlen]; exact hc.1, hc.2⟩
      have hboth : ¬ ((0 < pos ∧ |starts.getD (pos - 1) 0 - x| < page) ∧
          pos < starts.length ∧ |starts.getD pos 0 - x| < page) :=
        fun hc => hinb hc.2
      simp only [if_neg h0, if_pos h1, if_neg hboth, if_neg hinb]
      rfl
  · by_cases h0 : pos < groups.length ∧ |starts.getD pos 0 - x| < page
    · have h0' : pos < starts.length ∧ |starts.getD pos 0 - x| < page :=
        ⟨by rw [hlen]; exact h0.1, h0.2⟩
      have hboth : ¬ ((0 < pos ∧ |starts.getD (pos - 1) 0 - x| < page) ∧
          pos < starts.length ∧ |starts.getD pos 0 - x| < page) :=
        fun hc => h1 hc.1
      simp only [if_pos h0, if_neg h1, if_neg hboth, if_pos h0']
      rfl
    · have hinb : ¬ (pos < starts.length ∧ |starts.getD pos 0 - x| < page) :=
        fun hc => h0 ⟨by rw [← hlen]; exact hc.1, hc.2⟩
      have hboth : ¬ ((0 < pos ∧ |starts.getD (pos - 1) 0 - x| < page) ∧
          pos < starts.length ∧ |starts.getD pos 0 - x| < page) :=
        fun hc => h1 hc.1
      simp only [if_neg h0, if_neg h1, if_neg hboth, if_neg hinb]
      rfl

/-- C8: on a non-empty group list (of non-empty groups) with ascending
starts, `find_group_index` returns exactly what the spec's locator contract
prescribes over the start table: it considers the candidate at the
binary-search insertion position `pos` (when in bounds) and the one at
`pos - 1` (when `pos > 0`), qualifies a candidate iff `|start - x| < page`
strictly, returns the smaller index when both qualify, the single qualifying
index when exactly one does, and the sentinel `-1` otherwise — that is, it
computes `locateSpec`. -/
theorem find_group_index_follows_locate (groups : List (List Int)) (x page : Int)
    (hne : groups ≠ []) (hg : ∀ g ∈ groups, g ≠ [])
    (hasc : List.Chain' (· ≤ ·) (groups.map (fun g => g.headD 0))) :
    find_group_index groups x page =
      Except.ok (locateSpec (groups.map (fun g => g.headD 0)) x page) :=
  find_group_index_eq_locate groups x page hne hg

/-- Witness for C8 at the spec's Scenario 5 input. -/
theorem find_group_index_follows_locate_witness :
    find_group_index [[100], [2000], [5000]] 900 1024 =
      Except.ok (locateSpec [100, 2000, 5000] 900 1024) :=
  find_group_index_follows_locate [[100], [2000], [5000]] 900 1024
    (by simp) (by simp) (by norm_num [List.chain'_cons])

/-- C10: for every list of (per the data model, non-empty) groups, every
page size and every query, `find_group_index` returns without error, and the
result is either the sentinel `-1` or an in-bounds group index; on the empty
group list the result is `-1`. -/
theorem find_group_index_in_range (groups : List (List Int)) (x page : Int)
    (hg : ∀ g ∈ groups, g ≠ []) :
    ∃ r, find_group_index groups x page = Except.ok r ∧
      (r = -1 ∨ (0 ≤ r ∧ r < groups.length)) ∧ (groups = [] → r = -1) := by
  cases groups with
  | nil => exact ⟨-1, rfl, Or.inl rfl, fun _ => rfl⟩
  | cons g gs =>
    refine ⟨locateSpec ((g :: gs).map (fun gg => gg.headD 0)) x page,
      find_group_index_eq_locate (g :: gs) x page (by simp) hg, ?_, by simp⟩
    set starts := (g :: gs).map (fun gg => gg.headD 0) with hst
    have hlen : starts.length = (g :: gs).length := List.length_map _ _
    have hple := bisectLeft_le_length starts x
    simp only [locateSpec]
    set pos := bisectLeft starts x with hpos
    split_ifs with hA hB hC
    · have h1 := hA.1.1
      right
      constructor <;> omega
    · have h1 := hB.1
      right
      constructor <;> omega
    · have h1 := hC.1
      right
      constructor <;> omega
    · exact Or.inl rfl

/-- Witness for C10 at the Scenario 5 group list. -/
theorem find_group_index_in_range_witness :
    ∃ r, find_group_index [[100], [2000], [5000]] 900 1024 = Except.ok r ∧
      (r = -1 ∨ (0 ≤ r ∧ r < ([[100], [2000], [5000]] : List (List Int)).length)) ∧
      (([[100], [2000], [5000]] : List (List Int)) = [] → r = -1) :=
  find_group_index_in_range [[100], [2000], [5000]] 900 1024 (by simp)

/-- C9 counterexample: the group starts `[100, 200]` are strictly ascending
and `PAGE = 1024` strictly exceeds the minimum adjacent start distance
`200 - 100 = 100`, yet querying with group 1's own start value `200` returns
index 0, not 1: the earlier start 100 also lies within the window and the
tie-break prefers the smaller index. -/
theorem locate_self_cex :
    ((100 : Int) < 200 ∧ (1024 : Int) > 200 - 100) ∧
      find_group_index [[100], [200]] 200 1024 = Except.ok 0 ∧
      (Except.ok (0 : Int) : Except PyErr Int) ≠ Except.ok (1 : Int) := by
  refine ⟨⟨by norm_num, by norm_num⟩, by rfl, fun h => ?_⟩
  have h0 := Except.ok.inj h
  norm_num at h0

set_option maxHeartbeats 1000000 in
/-- Self-lookup for the locator contract: with strictly ascending starts
spaced at least `page` apart (`page` positive), looking up a start value
yields its own index. -/
theorem locateSpec_self (starts : List Int) (page : Int)
    (hasc : List.Chain' (· < ·) starts) (hpage : 0 < page)
    (hspace : List.Chain' (fun a b => a + page ≤ b) starts)
    (i : Nat) (hi : i < starts.length) :
    locateSpec starts (starts.getD i 0) page = (i : Int) := by
  have hpw : List.Pairwise (· < ·) starts := List.chain'_iff_pairwise.mp hasc
  have hget : ∀ j k (hj : j < starts.length) (hk : k < starts.length), j < k →
      starts.getD j 0 < starts.getD k 0 := by
    intro j k hj hk hjk
    rw [List.getD_eq_getElem starts 0 hj, List.getD_eq_getElem starts 0 hk]
    exact List.pairwise_iff_getElem.mp hpw j k hj hk hjk
  have hinb : i < starts.length ∧ |starts.getD i 0 - starts.getD i 0| < page := by
    refine ⟨hi, ?_⟩
    simpa using hpage
  have hbef : ¬ (0 < i ∧ |starts.getD (i - 1) 0 - starts.getD i 0| < page) := by
    rintro ⟨hpos0, habs⟩
    have hadj : starts.getD (i - 1) 0 + page ≤ starts.getD i 0 := by
      have hc := List.chain'_iff_get.mp hspace (i - 1) (by omega)
      have hidx : i - 1 + 1 = i := by omega
      have e1 : starts.getD (i - 1) 0 = starts.get ⟨i - 1, by omega⟩ := by
        rw [List.getD_eq_getElem starts 0 (by omega : i - 1 < starts.length)]
        simp [List.get_eq_getElem]
      have e2 : starts.getD i 0 = starts.get ⟨i - 1 + 1, by omega⟩ := by
        rw [List.getD_eq_getElem starts 0 hi]
        simp [List.get_eq_getElem, hidx]
      rw [e1, e2]
      exact hc
    have habs2 : |starts.getD (i - 1) 0 - starts.getD i 0| =
        starts.getD i 0 - starts.getD (i - 1) 0 := by
      rw [abs_sub_comm]
      exact abs_of_nonneg (by omega)
    rw [habs2] at habs
    omega
  have hposeq : bisectLeft starts (starts.getD i 0) = i := by
    apply bisectLeftAux_eq starts (starts.getD i 0) starts.length 0 starts.length i
      (by omega) (by omega) (by omega)
    · intro j _ hji
      exact hget j i (by omega) hi hji
    · intro j hij hjlen
      rcases Nat.eq_or_lt_of_le hij with rfl | hlt
      · exact lt_irrefl _
      · exact not_lt.mpr (le_of_lt (hget i j hi hjlen hlt))
  simp only [locateSpec]
  rw [hposeq]
  clear hposeq
  rw [if_neg (fun hc => hbef hc.1), if_pos hinb]

/-- C9 (amended): when every two adjacent group starts are at least `page`
apart (so `page` does not exceed the minimum adjacent start distance; `page`
positive, starts strictly ascending, groups non-empty), querying
`find_group_index` with any group's own start value returns that group's
index. -/
theorem find_group_index_self (groups : List (List Int)) (page : Int)
    (hne : groups ≠ []) (hg : ∀ g ∈ groups, g ≠ [])
    (hasc : List.Chain' (· < ·) (groups.map (fun g => g.headD 0)))
    (hpage : 0 < page)
    (hspace : List.Chain' (fun a b => a + page ≤ b) (groups.map (fun g => g.headD 0)))
    (i : Nat) (hi : i < groups.length) :
    find_group_index groups (((groups.map (fun g => g.headD 0)).getD i 0)) page =
      Except.ok (i : Int) := by
  have hi' : i < (groups.map (fun g => g.headD 0)).length := by
    rw [List.length_map]
    exact hi
  rw [find_group_index_eq_locate groups _ page hne hg,
    locateSpec_self (groups.map (fun g => g.headD 0)) page hasc hpage hspace i hi']

/-- Witness for C9's amended claim: starts 100, 2000, 5000 are pairwise at
least 1024 apart, and querying with the start 2000 of group 1 returns 1. -/
theorem find_group_index_self_witness :
    find_group_index [[100], [2000], [5000]]
        ((([[100], [2000], [5000]] : List (List Int)).map (fun g => g.headD 0)).getD 1 0)
        1024 =
      Except.ok (1 : Int) :=
  find_group_index_self [[100], [2000], [5000]] 1024 (by simp) (by simp)
    (by norm_num [List.chain'_cons]) (by norm_num)
    (by norm_num [List.chain'_cons]) 1 (by norm_num)

example : get_groups [1, 2, 3, 10, 11, 50] 1 = Except.ok [[1, 2, 3], [10, 11], [50]] := by rfl
example : get_groups [1, 2, 3, 10, 11, 50] 10 = Except.ok [[1, 2, 3, 10, 11], [50]] := by rfl
example : getGroupsNE 1 1 [2, 3, 10, 11, 50] = [[1, 2, 3], [10, 11], [50]] := by rfl
example : classify [100, 0x10000, 0x10008] = Except.ok ([100], [0x10000, 0x10002]) := by rfl
example : classify [100, 0x10001] = Except.error PyErr.assertionError := by rfl
example : find_group_index [[100], [2000], [5000]] 900 1024 = Except.ok 0 := by rfl
example : find_group_index [[100], [200]] 200 1024 = Except.ok 0 := by rfl
example : find_group_index [] 900 1024 = Except.ok (-1) := by rfl
example : bisectLeft [100, 2000, 5000] 2000 = 1 := by rfl
